import Mathlib

/-!
Shallow embedding of the design-matrix construction and evaluation logic of
`examples/plot_glm_retinal_ganglia.py`, together with the closed-form
least-squares fit.  Sequences of real samples are modelled as `List ℚ`
(exact arithmetic in place of IEEE doubles); the special IEEE values that
arise from division by zero are modelled explicitly by the type `RVal`.
NumPy/SciPy primitives used by the script (`np.pad`, slicing,
`scipy.linalg.hankel`, `np.hstack`, `numpy.linalg.inv`) are embedded with
their documented semantics.
-/

/-- Embedding of `np.pad(xs, (l, 0))`: left-pad with `l` zeros. -/
def npPad (xs : List ℚ) (l : Nat) : List ℚ := List.replicate l 0 ++ xs

/-- Python slice `xs[0:e]` where `e` may be negative (counted from the end,
clamped at the ends as Python does). -/
def pySliceTo (xs : List ℚ) (e : Int) : List ℚ :=
  if e < 0 then xs.take ((xs.length : Int) + e).toNat else xs.take e.toNat

/-- Python slice `xs[-l:]` (for `l = 0` this is `xs[0:]`, the whole list). -/
def pyTailSlice (xs : List ℚ) (l : Nat) : List ℚ :=
  if l = 0 then xs else xs.drop (xs.length - l)

/-- Embedding of `scipy.linalg.hankel(c, r)`: the `(len c) × (len r)` matrix whose
entry `(i, j)` is `(c ++ r[1:])[i + j]`. -/
def hankelM (c r : List ℚ) : List (List ℚ) :=
  (List.range c.length).map fun i =>
    (List.range r.length).map fun j => (c ++ r.drop 1).getD (i + j) 0

/-- Line 145–146 of the script:
`stim_padded = np.pad(stim, (n_t_filt - 1, 0))`;
`Xdsgn = hankel(stim_padded[0: -n_t_filt + 1], stim[-n_t_filt:])`. -/
def XdsgnM (stim : List ℚ) (L : Nat) : List (List ℚ) :=
  hankelM (pySliceTo (npPad stim (L - 1)) (1 - (L : Int))) (pyTailSlice stim L)

/-- Line 220 of the script:
`Xstim = hankel(stim_padded[:-n_t_filt + 1], stim[-n_t_filt:])`. -/
def XstimM (stim : List ℚ) (L : Nat) : List (List ℚ) :=
  hankelM (pySliceTo (npPad stim (L - 1)) (1 - (L : Int))) (pyTailSlice stim L)

/-- Lines 218 and 221 of the script:
`spikes_padded = np.pad(spikes_binned, (n_t_hist, 0))`;
`Xspikes = hankel(spikes_padded[:-n_t_hist], stim[-n_t_hist:])`.
Note that the second argument of `hankel` is taken from `stim`,
exactly as in the source. -/
def XspikesM (stim spikes : List ℚ) (H : Nat) : List (List ℚ) :=
  hankelM (pySliceTo (npPad spikes H) (-(H : Int))) (pyTailSlice stim H)

/-- Embedding of `np.hstack` on two matrices with the same number of rows:
row-wise concatenation. -/
def hstackM (A B : List (List ℚ)) : List (List ℚ) := List.zipWith (· ++ ·) A B

/-- Line 222 of the script: `Xdsgn_hist = np.hstack((Xstim, Xspikes))`. -/
def XdsgnHistM (stim spikes : List ℚ) (L H : Nat) : List (List ℚ) :=
  hstackM (XstimM stim L) (XspikesM stim spikes H)

/-- The value of a causal sequence at a (possibly negative) time index:
zero before time 0. -/
def sAt (s : List ℚ) (i : Int) : ℚ := if i < 0 then 0 else s.getD i.toNat 0

-- sanity checks (concrete evaluations of the embedding)
example : XdsgnM [1, 2, 3] 2 = [[0, 1], [1, 2], [2, 3]] := by decide
example : XdsgnM [1, 2] 1 = [] := by decide
example : XspikesM [10, 20, 30, 40, 50] [2, 0, 1, 3, 0] 3 =
    [[0, 0, 0], [0, 0, 2], [0, 2, 0], [2, 0, 40], [0, 40, 50]] := by decide

/-! ### Structural lemmas about the embedding -/

lemma npPad_length (a : List ℚ) (p : Nat) : (npPad a p).length = p + a.length := by
  simp [npPad]

lemma npPad_getD (a : List ℚ) (p q : Nat) :
    (npPad a p).getD q 0 = if q < p then 0 else a.getD (q - p) 0 := by
  unfold npPad
  by_cases h : q < p
  · rw [if_pos h, List.getD_append _ _ _ _ (by simpa using h),
      List.getD_eq_getElem _ _ (by simpa using h), List.getElem_replicate]
  · rw [if_neg h, List.getD_append_right _ _ _ _ (by simpa using Nat.le_of_not_lt h)]
    simp

lemma hankelM_length (c r : List ℚ) : (hankelM c r).length = c.length := by
  simp [hankelM]

lemma hankelM_row (c r : List ℚ) (t : Nat) (ht : t < c.length) :
    (hankelM c r).getD t [] =
      (List.range r.length).map fun j => (c ++ r.drop 1).getD (t + j) 0 := by
  rw [List.getD_eq_getElem _ _ (by simpa [hankelM] using ht)]
  simp [hankelM]

lemma hankelM_row_length (c r : List ℚ) (t : Nat) (ht : t < c.length) :
    ((hankelM c r).getD t []).length = r.length := by
  rw [hankelM_row c r t ht]; simp

lemma hankelM_entry (c r : List ℚ) (t k : Nat) (ht : t < c.length) (hk : k < r.length) :
    ((hankelM c r).getD t []).getD k 0 = (c ++ r.drop 1).getD (t + k) 0 := by
  rw [hankelM_row c r t ht,
    List.getD_eq_getElem _ _ (by simpa using hk)]
  simp

lemma cPad_eq (a : List ℚ) (p : Nat) (hp : 1 ≤ p) :
    pySliceTo (npPad a p) (-(p : Int)) = (npPad a p).take a.length := by
  unfold pySliceTo
  rw [if_pos (by omega)]
  congr 1
  rw [npPad_length]
  omega

lemma cPad_length (a : List ℚ) (p : Nat) :
    ((npPad a p).take a.length).length = a.length := by
  simp [npPad_length]

lemma cPad_getD (a : List ℚ) (p q : Nat) (hq : q < a.length) :
    ((npPad a p).take a.length).getD q 0 = (npPad a p).getD q 0 := by
  rw [List.getD_eq_getD_get?, List.getD_eq_getD_get?, List.get?_eq_getElem?,
    List.get?_eq_getElem?, List.getElem?_take_of_lt hq]

lemma pyTailSlice_length (s : List ℚ) (l : Nat) (hl : 1 ≤ l) :
    (pyTailSlice s l).length = min l s.length := by
  unfold pyTailSlice
  rw [if_neg (by omega)]
  simp only [List.length_drop]
  omega

/-- The entry of a hankel matrix whose first column is the length-preserving
slice of a `p`-left-padded sequence. -/
lemma padded_entry (a r' : List ℚ) (p t k : Nat) (ht : t < a.length) (hk : k < r'.length) :
    ((hankelM ((npPad a p).take a.length) r').getD t []).getD k 0 =
      if t + k < a.length then (npPad a p).getD (t + k) 0
      else (r'.drop 1).getD (t + k - a.length) 0 := by
  rw [hankelM_entry _ _ _ _ (by rw [cPad_length]; exact ht) hk]
  by_cases h : t + k < a.length
  · rw [if_pos h, List.getD_append _ _ _ _ (by rw [cPad_length]; exact h)]
    exact cPad_getD a p _ h
  · rw [if_neg h, List.getD_append_right _ _ _ _ (by rw [cPad_length]; omega)]
    rw [cPad_length]

lemma Xdsgn_c_eq (s : List ℚ) (L : Nat) (h2 : 2 ≤ L) :
    pySliceTo (npPad s (L - 1)) (1 - (L : Int)) = (npPad s (L - 1)).take s.length := by
  have h : (1 - (L : Int)) = -(((L - 1 : Nat)) : Int) := by
    rw [Nat.cast_sub (by omega : 1 ≤ L)]
    push_cast
    ring
  rw [h]
  exact cPad_eq s (L - 1) (by omega)

/-- For `2 ≤ L ≤ N` the concatenation `c ++ r[1:]` underlying `Xdsgn`
is exactly the padded stimulus. -/
lemma Xdsgn_vals (s : List ℚ) (L : Nat) (h2 : 2 ≤ L) (hLN : L ≤ s.length) :
    (npPad s (L - 1)).take s.length ++ (pyTailSlice s L).drop 1 = npPad s (L - 1) := by
  conv_rhs => rw [← List.take_append_drop s.length (npPad s (L - 1))]
  congr 1
  unfold npPad pyTailSlice
  have hrep : List.drop s.length (List.replicate (L - 1) (0 : ℚ)) = [] :=
    List.drop_eq_nil_of_le (by simp only [List.length_replicate]; omega)
  rw [if_neg (by omega), List.drop_drop, List.drop_append_eq_append_drop, hrep,
    List.nil_append]
  congr 1
  simp only [List.length_replicate]
  omega

lemma XdsgnM_length (s : List ℚ) (L : Nat) (h2 : 2 ≤ L) :
    (XdsgnM s L).length = s.length := by
  unfold XdsgnM
  rw [Xdsgn_c_eq s L h2, hankelM_length, cPad_length]

lemma XdsgnM_row_length (s : List ℚ) (L t : Nat) (h2 : 2 ≤ L) (ht : t < s.length) :
    ((XdsgnM s L).getD t []).length = min L s.length := by
  unfold XdsgnM
  rw [Xdsgn_c_eq s L h2,
    hankelM_row_length _ _ _ (by rw [cPad_length]; exact ht),
    pyTailSlice_length s L (by omega)]

lemma XdsgnM_entry (s : List ℚ) (L t k : Nat) (h2 : 2 ≤ L) (hLN : L ≤ s.length)
    (ht : t < s.length) (hk : k < L) :
    ((XdsgnM s L).getD t []).getD k 0 =
      if t + k < L - 1 then 0 else s.getD (t + k - (L - 1)) 0 := by
  unfold XdsgnM
  rw [Xdsgn_c_eq s L h2,
    hankelM_entry _ _ _ _ (by rw [cPad_length]; exact ht)
      (by rw [pyTailSlice_length s L (by omega)]; omega),
    Xdsgn_vals s L h2 hLN, npPad_getD]

lemma XspikesM_length (stim sp : List ℚ) (H : Nat) (hH : 1 ≤ H) :
    (XspikesM stim sp H).length = sp.length := by
  unfold XspikesM
  rw [cPad_eq sp H hH, hankelM_length, cPad_length]

lemma XspikesM_row_length (stim sp : List ℚ) (H t : Nat) (hH : 1 ≤ H) (ht : t < sp.length) :
    ((XspikesM stim sp H).getD t []).length = min H stim.length := by
  unfold XspikesM
  rw [cPad_eq sp H hH,
    hankelM_row_length _ _ _ (by rw [cPad_length]; exact ht),
    pyTailSlice_length stim H hH]

lemma XspikesM_entry (stim sp : List ℚ) (H t k : Nat) (hH : 1 ≤ H)
    (ht : t < sp.length) (hk : k < (pyTailSlice stim H).length) :
    ((XspikesM stim sp H).getD t []).getD k 0 =
      if t + k < sp.length then (if t + k < H then 0 else sp.getD (t + k - H) 0)
      else ((pyTailSlice stim H).drop 1).getD (t + k - sp.length) 0 := by
  unfold XspikesM
  rw [cPad_eq sp H hH, padded_entry sp (pyTailSlice stim H) H t k ht hk, npPad_getD]

lemma hstackM_row (A B : List (List ℚ)) (t : Nat) (htA : t < A.length) (htB : t < B.length) :
    (hstackM A B).getD t [] = A.getD t [] ++ B.getD t [] := by
  unfold hstackM
  rw [List.getD_eq_getElem _ _ (by rw [List.length_zipWith]; omega),
    List.getElem_zipWith, List.getD_eq_getElem _ _ htA, List.getD_eq_getElem _ _ htB]

/-- The stimulus of the C9 scenario: `[0, 1, 0, 1, ...]` of length 100. -/
def stim100 : List ℚ := (List.range 100).map fun i => if i % 2 = 1 then 1 else 0

/-! ### Claims -/

/-- C1 (amended: the window length must be at least 2; at `L = 1` the slice
`stim_padded[0: -L + 1]` is empty and the builder returns a `(0, 1)` matrix).
For `1 < L < N` the builder produces an `(N, L)` matrix whose entry at row
`t`, column `k` is `s[t - L + 1 + k]` with indices before time 0 yielding
zero, and in each of the first `L - 1` rows every column `k < L - 1 - t`
is zero. -/
theorem claim_C1 (s : List ℚ) (L : Nat) (h2 : 2 ≤ L) (hLN : L < s.length) :
    (XdsgnM s L).length = s.length ∧
    (∀ t, t < s.length → ((XdsgnM s L).getD t []).length = L) ∧
    (∀ t k, t < s.length → k < L →
      ((XdsgnM s L).getD t []).getD k 0 = sAt s ((t : Int) - L + 1 + k)) ∧
    (∀ t k, t < L - 1 → k < L - 1 - t → ((XdsgnM s L).getD t []).getD k 0 = 0) := by
  refine ⟨XdsgnM_length s L h2, ?_, ?_, ?_⟩
  · intro t ht
    rw [XdsgnM_row_length s L t h2 ht]
    omega
  · intro t k ht hk
    rw [XdsgnM_entry s L t k h2 (by omega) ht hk]
    unfold sAt
    by_cases h : t + k < L - 1
    · rw [if_pos h, if_pos (by omega)]
    · rw [if_neg h, if_neg (by omega)]
      congr 1
      omega
  · intro t k ht hk
    rw [XdsgnM_entry s L t k h2 (by omega) (by omega) (by omega)]
    rw [if_pos (by omega)]

/-- C1 counterexample: with `N = 2` and `L = 1` (so `0 < L < N` as the claim
requires) the builder returns a matrix with 0 rows, not `N = 2` rows. -/
theorem claim_C1_cex :
    (XdsgnM [(1 : ℚ), 2] 1).length = 0 ∧ ¬(XdsgnM [(1 : ℚ), 2] 1).length = 2 := by
  decide

/-- C1 witness: the amended claim instantiated at `s = [5, 6, 7]`, `L = 2`,
`t = 1`, `k = 0`. -/
theorem claim_C1_witness :
    ((XdsgnM [(5 : ℚ), 6, 7] 2).getD 1 []).getD 0 0 =
      sAt [(5 : ℚ), 6, 7] ((1 : Int) - 2 + 1 + 0) :=
  (claim_C1 [(5 : ℚ), 6, 7] 2 (by decide) (by decide)).2.2.1 1 0 (by decide) (by decide)

/-- C2: evaluation of the history block at the failing input
`stim = [10, 20, 30, 40, 50]`, `spikes = [2, 0, 1, 3, 0]`, `H = 3`.
Row 3, column 2 of the history block is `40 = stim[3]`, a stimulus value,
whereas the claim requires the spike count at time `3 - 3 + 2 = 2`,
namely `1`: the second `hankel` argument on line 221 is taken from `stim`
rather than from the padded spike counts, so the bottom-right triangle of
the history block is filled with stimulus samples. -/
theorem claim_C2 :
    (XspikesM [10, 20, 30, 40, 50] [2, 0, 1, 3, 0] 3).getD 3 [] = [2, 0, 40] ∧
    ((XspikesM [10, 20, 30, 40, 50] [2, 0, 1, 3, 0] 3).getD 3 []).getD 2 0 ≠
      ([(2 : ℚ), 0, 1, 3, 0]).getD (3 - 3 + 2) 0 := by
  decide

/-- C5 counterexample: with window length `L = 2` equal to the sequence
length `N = 2` (an input the claim says must be rejected before any matrix
is built), the builder silently constructs the matrix `[[0, 1], [1, 2]]`. -/
theorem claim_C5_cex : XdsgnM [(1 : ℚ), 2] 2 = [[0, 1], [1, 2]] := by decide

/-- C5 (amended): the script performs no input validation.  For every
window length `L ≥ 2` — including `L ≥ N` — the stimulus builder
constructs a matrix with `N` rows of length `min L N` each, and for every
history window `H ≥ 1` the history builder constructs a matrix with one
row per spike bin, of length `min H (stimulus length)` each, even when the
stimulus and spike sequences differ in length. -/
theorem claim_C5 (s sp : List ℚ) (L H : Nat) (h2 : 2 ≤ L) (h1 : 1 ≤ H) :
    (XdsgnM s L).length = s.length ∧
    (∀ t, t < s.length → ((XdsgnM s L).getD t []).length = min L s.length) ∧
    (XspikesM s sp H).length = sp.length ∧
    (∀ t, t < sp.length → ((XspikesM s sp H).getD t []).length = min H s.length) :=
  ⟨XdsgnM_length s L h2, fun t ht => XdsgnM_row_length s L t h2 ht,
    XspikesM_length s sp H h1, fun t ht => XspikesM_row_length s sp H t h1 ht⟩

/-- C5 witness: the amended claim at `s = [1, 2]`, `sp = [3, 4, 5]`
(mismatched lengths), `L = 3 ≥ N = 2`, `H = 1`. -/
theorem claim_C5_witness :
    (XdsgnM [(1 : ℚ), 2] 3).length = ([(1 : ℚ), 2]).length ∧
    (∀ t, t < ([(1 : ℚ), 2]).length →
      ((XdsgnM [(1 : ℚ), 2] 3).getD t []).length = min 3 ([(1 : ℚ), 2]).length) ∧
    (XspikesM [(1 : ℚ), 2] [3, 4, 5] 1).length = ([(3 : ℚ), 4, 5]).length ∧
    (∀ t, t < ([(3 : ℚ), 4, 5]).length →
      ((XspikesM [(1 : ℚ), 2] [3, 4, 5] 1).getD t []).length =
        min 1 ([(1 : ℚ), 2]).length) :=
  claim_C5 [(1 : ℚ), 2] [3, 4, 5] 3 1 (by decide) (by decide)

/-- C9: on the concrete scenario `stim = [0, 1, 0, 1, ...]` of length 100
with `L = 5`, the builder produces a `(100, 5)` matrix whose row 4 is
`[stim[0], ..., stim[4]] = [0, 1, 0, 1, 0]` and whose row 0 is
`[0, 0, 0, 0, stim[0]] = [0, 0, 0, 0, 0]`. -/
theorem claim_C9 :
    (XdsgnM stim100 5).length = 100 ∧
    (∀ row ∈ XdsgnM stim100 5, row.length = 5) ∧
    (XdsgnM stim100 5).getD 4 [] = [0, 1, 0, 1, 0] ∧
    (XdsgnM stim100 5).getD 0 [] = [0, 0, 0, 0, 0] := by
  decide

/-- C3: two-run noninterference of the history builder.  Changing only the
spike-count value at index `t` leaves row `t` of the history block
unchanged: row `t` references spike counts only at times strictly before
`t` (its remaining entries come from the stimulus, which is held fixed). -/
theorem claim_C3 (stim sp sp' : List ℚ) (H t : Nat)
    (hlen : sp.length = sp'.length)
    (hagree : ∀ i, i < sp.length → i ≠ t → sp.getD i 0 = sp'.getD i 0) :
    (XspikesM stim sp H).getD t [] = (XspikesM stim sp' H).getD t [] := by
  rcases Nat.eq_zero_or_pos H with hH | hH
  · subst hH
    simp [XspikesM, pySliceTo, hankelM]
  · by_cases ht : t < sp.length
    · have hlenrow :
          ((XspikesM stim sp H).getD t []).length =
            ((XspikesM stim sp' H).getD t []).length := by
        rw [XspikesM_row_length stim sp H t hH ht,
          XspikesM_row_length stim sp' H t hH (by omega)]
      apply List.ext_getElem hlenrow
      intro i h1 h2
      have hk : i < (pyTailSlice stim H).length := by
        rw [XspikesM_row_length stim sp H t hH ht] at h1
        rw [pyTailSlice_length stim H hH]
        omega
      have hkH : i < H := by
        rw [pyTailSlice_length stim H hH] at hk
        omega
      rw [← List.getD_eq_getElem _ 0 h1, ← List.getD_eq_getElem _ 0 h2,
        XspikesM_entry stim sp H t i hH ht hk,
        XspikesM_entry stim sp' H t i hH (by omega) hk, ← hlen]
      by_cases hc : t + i < sp.length
      · rw [if_pos hc, if_pos hc]
        by_cases hh : t + i < H
        · rw [if_pos hh, if_pos hh]
        · rw [if_neg hh, if_neg hh]
          exact hagree (t + i - H) (by omega) (by omega)
      · rw [if_neg hc, if_neg hc]
    · rw [List.getD_eq_default _ _ (by rw [XspikesM_length stim sp H hH]; omega),
        List.getD_eq_default _ _ (by rw [XspikesM_length stim sp' H hH]; omega)]

/-- C3 witness: perturbing the spike count at index 1 (6 ↦ 9) leaves row 1
of the history block unchanged. -/
theorem claim_C3_witness :
    (XspikesM [(1 : ℚ), 2, 3] [5, 6, 7] 2).getD 1 [] =
      (XspikesM [(1 : ℚ), 2, 3] [5, 9, 7] 2).getD 1 [] :=
  claim_C3 [(1 : ℚ), 2, 3] [5, 6, 7] [5, 9, 7] 2 1 (by decide) (by decide)

/-- C10: the stimulus-lag block of the history-augmented construction
(lines 218–222) coincides with the standalone stimulus design matrix of
line 146: `Xstim` and `Xdsgn` are the same function, and for `1 ≤ L ≤ N`
(and a nonempty history window) the first `L` columns of every row of the
combined matrix equal the corresponding row of the standalone matrix. -/
theorem claim_C10 (stim sp : List ℚ) (L H : Nat) (h1 : 1 ≤ L) (hLN : L ≤ stim.length)
    (hH : 1 ≤ H) (hsp : sp.length = stim.length) :
    XstimM stim L = XdsgnM stim L ∧
    ∀ t, t < stim.length →
      ((XdsgnHistM stim sp L H).getD t []).take L = (XdsgnM stim L).getD t [] := by
  refine ⟨rfl, ?_⟩
  intro t ht
  rcases Nat.lt_or_ge L 2 with hL1 | hL2
  · have hL : L = 1 := by omega
    subst hL
    have hX : XdsgnM stim 1 = [] := by
      unfold XdsgnM pySliceTo
      norm_num [hankelM]
    have hX' : XstimM stim 1 = [] := hX
    unfold XdsgnHistM hstackM
    rw [hX, hX']
    simp
  · have hXeq : XstimM stim L = XdsgnM stim L := rfl
    have hrows : t < (XstimM stim L).length := by
      rw [hXeq, XdsgnM_length stim L hL2]
      exact ht
    have hrowsB : t < (XspikesM stim sp H).length := by
      rw [XspikesM_length stim sp H hH]
      omega
    unfold XdsgnHistM
    rw [hstackM_row _ _ t hrows hrowsB, hXeq]
    have hlenrow : ((XdsgnM stim L).getD t []).length = L := by
      rw [XdsgnM_row_length stim L t hL2 ht]
      omega
    rw [List.take_append_of_le_length (by omega)]
    exact List.take_of_length_le (by omega)

/-- C10 witness: the refinement at `stim = [1, 2, 3]`, `sp = [4, 5, 6]`,
`L = 2`, `H = 1`, row 1. -/
theorem claim_C10_witness :
    ((XdsgnHistM [(1 : ℚ), 2, 3] [4, 5, 6] 2 1).getD 1 []).take 2 =
      (XdsgnM [(1 : ℚ), 2, 3] 2).getD 1 [] :=
  (claim_C10 [(1 : ℚ), 2, 3] [4, 5, 6] 2 1 (by decide) (by decide) (by decide)
    (by decide)).2 1 (by decide)

/-! ### Prediction/scoring harness (lines 261–274) -/

/-- An IEEE-style extended value: a finite rational, `nan`, or a signed
infinity.  Models the result of Python float arithmetic in the only place
the script can divide by zero. -/
inductive RVal
  | num (q : ℚ)
  | nan
  | pinf
  | ninf
  deriving DecidableEq

/-- IEEE subtraction on extended values. -/
def rsub : RVal → RVal → RVal
  | .num a, .num b => .num (a - b)
  | .num _, .pinf => .ninf
  | .num _, .ninf => .pinf
  | .pinf, .num _ => .pinf
  | .pinf, .ninf => .pinf
  | .ninf, .num _ => .ninf
  | .ninf, .pinf => .ninf
  | .pinf, .pinf => .nan
  | .ninf, .ninf => .nan
  | .nan, _ => .nan
  | _, .nan => .nan

/-- IEEE division for finite operands: a finite quotient when the divisor
is nonzero, and otherwise `nan` (0/0) or a signed infinity.  The script
only ever divides finite values, so the remaining cases propagate `nan`. -/
def rdiv : RVal → RVal → RVal
  | .num a, .num b =>
      if b = 0 then (if a = 0 then .nan else if 0 < a then .pinf else .ninf)
      else .num (a / b)
  | _, _ => .nan

/-- Embedding of `np.mean(y)`. -/
def meanQ (y : List ℚ) : ℚ := y.sum / y.length

/-- Lines 261–262: `np.mean((y - pred) ** 2)`. -/
def mseQ (y p : List ℚ) : ℚ :=
  (List.zipWith (fun a b => (a - b) ^ 2) y p).sum / y.length

/-- Line 267: `rss = np.mean((y - np.mean(y)) ** 2)`. -/
def rssQ (y : List ℚ) : ℚ := ((y.map fun a => (a - meanQ y) ^ 2).sum) / y.length

/-- Lines 269–274: the reported pseudo-R², `1 - mse / rss`, computed with
float semantics for the division. -/
def pseudoR2 (y p : List ℚ) : RVal :=
  rsub (.num 1) (rdiv (.num (mseQ y p)) (.num (rssQ y)))

-- sanity checks
example : pseudoR2 [1, 1] [0, 0] = RVal.ninf := by
  norm_num [pseudoR2, mseQ, rssQ, meanQ, rdiv, rsub]
example : pseudoR2 [0, 2] [0, 2] = RVal.num 1 := by
  norm_num [pseudoR2, mseQ, rssQ, meanQ, rdiv, rsub]
example : pseudoR2 [0, 2] [1, 1] = RVal.num 0 := by
  norm_num [pseudoR2, mseQ, rssQ, meanQ, rdiv, rsub]

lemma zipWith_sq_nonneg (y p : List ℚ) :
    ∀ x ∈ List.zipWith (fun a b => (a - b) ^ 2) y p, 0 ≤ x := by
  induction y generalizing p with
  | nil => intro x hx; simp at hx
  | cons a ys ih =>
    cases p with
    | nil => intro x hx; simp at hx
    | cons b ps =>
      intro x hx
      rcases List.mem_cons.1 hx with h | h
      · subst h; positivity
      · exact ih ps x h

lemma mseQ_nonneg (y p : List ℚ) : 0 ≤ mseQ y p := by
  unfold mseQ
  exact div_nonneg (List.sum_nonneg (zipWith_sq_nonneg y p)) (Nat.cast_nonneg _)

lemma sum_pos_of_nonneg_of_mem {l : List ℚ} (hnn : ∀ x ∈ l, 0 ≤ x) {a : ℚ}
    (ha : a ∈ l) (hpos : 0 < a) : 0 < l.sum := by
  induction l with
  | nil => simp at ha
  | cons b bs ih =>
    rw [List.sum_cons]
    rcases List.mem_cons.1 ha with h | h
    · have h2 : 0 ≤ bs.sum :=
        List.sum_nonneg fun x hx => hnn x (List.mem_cons_of_mem _ hx)
      rw [← h]
      linarith
    · have hb : 0 ≤ b := hnn b (List.mem_cons_self b bs)
      have h3 := ih (fun x hx => hnn x (List.mem_cons_of_mem _ hx)) h
      linarith

lemma zipWith_replicate_len (f : ℚ → ℚ → ℚ) (l : List ℚ) (c : ℚ) :
    List.zipWith f l (List.replicate l.length c) = l.map fun a => f a c := by
  induction l with
  | nil => rfl
  | cons a bs ih => simp only [List.length_cons, List.replicate_succ,
      List.zipWith_cons_cons, List.map_cons, ih]

/-- C6 counterexample: on the constant observed sequence `[1, 1]` with
predictions `[0, 0]` the computation divides a positive MSE by zero and
reports `-∞` — it neither reports the sentinel `NaN` nor signals a
degenerate-input condition. -/
theorem claim_C6_cex :
    pseudoR2 [(1 : ℚ), 1] [(0 : ℚ), 0] = RVal.ninf ∧
    pseudoR2 [(1 : ℚ), 1] [(0 : ℚ), 0] ≠ RVal.nan := by
  have h : pseudoR2 [(1 : ℚ), 1] [(0 : ℚ), 0] = RVal.ninf := by
    norm_num [pseudoR2, mseQ, rssQ, meanQ, rdiv, rsub]
  exact ⟨h, by rw [h]; decide⟩

/-- C6 (amended): on a constant nonempty observed sequence the pseudo-R²
computation divides by zero with IEEE semantics: the result is `NaN`
exactly when the model MSE is also zero, and `-∞` otherwise; no
degenerate-input condition is signalled. -/
theorem claim_C6 (y p : List ℚ) (hne : y ≠ [])
    (hconst : ∀ a ∈ y, a = y.getD 0 0) :
    pseudoR2 y p = if mseQ y p = 0 then RVal.nan else RVal.ninf := by
  have hlenne : y.length ≠ 0 := fun h => hne (List.length_eq_zero.1 h)
  have hlenpos : (0 : ℚ) < y.length := by exact_mod_cast Nat.pos_of_ne_zero hlenne
  have hy : y = List.replicate y.length (y.getD 0 0) :=
    List.eq_replicate_iff.mpr ⟨rfl, hconst⟩
  have hmean : meanQ y = y.getD 0 0 := by
    have hsum : y.sum = (y.length : ℚ) * y.getD 0 0 := by
      conv_lhs => rw [hy]
      rw [List.sum_replicate, nsmul_eq_mul]
    unfold meanQ
    rw [hsum, mul_comm, mul_div_assoc, div_self (ne_of_gt hlenpos), mul_one]
  have hterm : (y.map fun a => (a - meanQ y) ^ 2) = List.replicate y.length 0 := by
    rw [List.eq_replicate_iff]
    refine ⟨by simp, ?_⟩
    intro b hb
    rcases List.mem_map.1 hb with ⟨a, ha, rfl⟩
    rw [hconst a ha, hmean]
    simp
  have hrss : rssQ y = 0 := by
    unfold rssQ
    rw [hterm, List.sum_replicate]
    simp
  unfold pseudoR2
  rw [hrss]
  by_cases hm : mseQ y p = 0
  · rw [if_pos hm, hm]
    simp [rdiv, rsub]
  · rw [if_neg hm]
    have hpos : 0 < mseQ y p := lt_of_le_of_ne (mseQ_nonneg y p) (Ne.symm hm)
    simp [rdiv, rsub, hm, hpos]

/-- C6 witness: the amended claim at the constant sequence `[2, 2]` with
predictions `[1, 1]`. -/
theorem claim_C6_witness :
    pseudoR2 [(2 : ℚ), 2] [(1 : ℚ), 1] =
      if mseQ [(2 : ℚ), 2] [(1 : ℚ), 1] = 0 then RVal.nan else RVal.ninf :=
  claim_C6 [(2 : ℚ), 2] [(1 : ℚ), 1] (by decide) (by decide)

/-- C7: for a non-constant observed sequence `y`, the pseudo-R² equals 1
when the predictions match the observations exactly, and equals 0 when
every prediction is the null-model mean of `y`. -/
theorem claim_C7 (y : List ℚ)
    (hnc : ∃ i j, i < y.length ∧ j < y.length ∧ y.getD i 0 ≠ y.getD j 0) :
    pseudoR2 y y = RVal.num 1 ∧
    pseudoR2 y (List.replicate y.length (meanQ y)) = RVal.num 0 := by
  obtain ⟨i, j, hi, hj, hij⟩ := hnc
  have hlenne : y.length ≠ 0 := by omega
  have hlenpos : (0 : ℚ) < y.length := by exact_mod_cast Nat.pos_of_ne_zero hlenne
  have hex : ∃ k, k < y.length ∧ y.getD k 0 ≠ meanQ y := by
    by_contra h
    push_neg at h
    exact hij ((h i hi).trans (h j hj).symm)
  obtain ⟨k, hk, hkm⟩ := hex
  have hmem : (y.getD k 0 - meanQ y) ^ 2 ∈ y.map fun a => (a - meanQ y) ^ 2 := by
    apply List.mem_map_of_mem
    rw [List.getD_eq_getElem _ _ hk]
    exact List.getElem_mem hk
  have hsumpos : 0 < (y.map fun a => (a - meanQ y) ^ 2).sum := by
    apply sum_pos_of_nonneg_of_mem ?_ hmem
    · exact lt_of_le_of_ne (sq_nonneg _)
        (Ne.symm (pow_ne_zero 2 (sub_ne_zero.mpr hkm)))
    · intro x hx
      rcases List.mem_map.1 hx with ⟨a, _, rfl⟩
      positivity
  have hrss : 0 < rssQ y := div_pos hsumpos hlenpos
  constructor
  · have hmse : mseQ y y = 0 := by
      unfold mseQ
      rw [List.zipWith_same]
      simp
    unfold pseudoR2
    rw [hmse]
    simp [rdiv, rsub, hrss.ne']
  · have hmse : mseQ y (List.replicate y.length (meanQ y)) = rssQ y := by
      unfold mseQ rssQ
      rw [zipWith_replicate_len]
    unfold pseudoR2
    rw [hmse]
    simp [rdiv, rsub, hrss.ne', div_self hrss.ne']

/-- C7 witness: the claim at the non-constant sequence `[0, 2]`. -/
theorem claim_C7_witness :
    pseudoR2 [(0 : ℚ), 2] [(0 : ℚ), 2] = RVal.num 1 ∧
    pseudoR2 [(0 : ℚ), 2]
      (List.replicate ([(0 : ℚ), 2]).length (meanQ [(0 : ℚ), 2])) = RVal.num 0 :=
  claim_C7 [(0 : ℚ), 2] ⟨0, 1, by decide, by decide, by decide⟩

/-! ### Closed-form least-squares fit (lines 172–179) -/

open Matrix

/-- The error raised by `numpy.linalg.inv` on a singular matrix
(`LinAlgError: Singular matrix`). -/
inductive LinAlgError
  | singular
  deriving DecidableEq

/-- Embedding of `numpy.linalg.inv`, per its documented behaviour: raise on a singular
input, otherwise return the inverse (written with the computable
adjugate formula). -/
def npInv {n : Nat} (A : Matrix (Fin n) (Fin n) ℚ) :
    Except LinAlgError (Matrix (Fin n) (Fin n) ℚ) :=
  if A.det = 0 then .error .singular else .ok (A.det⁻¹ • A.adjugate)

/-- Line 172: `Xdsgn_offset = np.hstack((np.ones((n_t, 1)), Xdsgn))` —
prepend the constant-1 bias column. -/
def addBias {m p : Nat} (X : Matrix (Fin m) (Fin p) ℚ) :
    Matrix (Fin m) (Fin (p + 1)) ℚ :=
  Matrix.of fun t j => if h : j = 0 then 1 else X t (j.pred h)

/-- Lines 175–176: `wsta_offset = inv(X.T @ X) @ X.T.dot(y)`. -/
def lstsqFit {m q : Nat} (X : Matrix (Fin m) (Fin q) ℚ) (y : Fin m → ℚ) :
    Except LinAlgError (Fin q → ℚ) :=
  (npInv (Xᵀ * X)).map fun Ainv => Ainv *ᵥ (Xᵀ *ᵥ y)

/-- Lines 178–179: `const, w = wsta_offset[0], wsta_offset[1:]` and
`spikes_pred = const + Xdsgn @ w`. -/
def predSplit {m p : Nat} (X : Matrix (Fin m) (Fin p) ℚ) (w : Fin (p + 1) → ℚ) :
    Fin m → ℚ :=
  fun t => w 0 + (X *ᵥ fun k => w k.succ) t

lemma npInv_eq_inv {n : Nat} (A : Matrix (Fin n) (Fin n) ℚ) (h : A.det ≠ 0) :
    npInv A = .ok A⁻¹ := by
  unfold npInv
  rw [if_neg h, Matrix.inv_def, Ring.inverse_eq_inv]

/-- C4: when the normal-equations matrix is invertible, the closed-form
fit on a bias-augmented design matrix recovers the exact coefficients of
noise-free data `y = X·β`, and the script's prediction
`const + Xdsgn @ w` coincides with `X·w` for the bias-augmented `X`. -/
theorem claim_C4 {m p : Nat} (X0 : Matrix (Fin m) (Fin p) ℚ) (β : Fin (p + 1) → ℚ)
    (h : ((addBias X0)ᵀ * addBias X0).det ≠ 0) :
    lstsqFit (addBias X0) ((addBias X0) *ᵥ β) = .ok β ∧
    ∀ w : Fin (p + 1) → ℚ, (addBias X0) *ᵥ w = predSplit X0 w := by
  constructor
  · unfold lstsqFit
    rw [npInv_eq_inv _ h]
    have hU : IsUnit (((addBias X0)ᵀ * addBias X0).det) := isUnit_iff_ne_zero.2 h
    simp only [Except.map]
    congr 1
    rw [Matrix.mulVec_mulVec, Matrix.mulVec_mulVec, Matrix.mul_assoc,
      Matrix.nonsing_inv_mul _ hU, Matrix.one_mulVec]
  · intro w
    funext t
    show ∑ j, addBias X0 t j * w j = predSplit X0 w t
    rw [Fin.sum_univ_succ]
    unfold predSplit addBias
    simp [Matrix.mulVec, dotProduct, Fin.succ_ne_zero]

/-- C8: when the normal-equations matrix is singular, the closed-form fit
fails with the singular-matrix error instead of returning coefficients. -/
theorem claim_C8 {m q : Nat} (X : Matrix (Fin m) (Fin q) ℚ) (y : Fin m → ℚ)
    (h : (Xᵀ * X).det = 0) : lstsqFit X y = .error .singular := by
  unfold lstsqFit npInv
  rw [if_pos h]
  rfl

/-- C8 witness: the all-zero 1×1 design matrix has singular normal
equations and the fit errors out. -/
theorem claim_C8_witness :
    lstsqFit (0 : Matrix (Fin 1) (Fin 1) ℚ) 0 = .error .singular :=
  claim_C8 0 0 (by simp)

/-- C4 witness: on the 2×1 design matrix `[[0], [1]]` with bias column,
the normal equations are invertible and the fit recovers `β = (2, 3)`
from noise-free data. -/
theorem claim_C4_witness :
    lstsqFit (addBias (Matrix.of ![![(0 : ℚ)], ![1]]))
        ((addBias (Matrix.of ![![(0 : ℚ)], ![1]])) *ᵥ ![2, 3]) = .ok ![2, 3] :=
  (claim_C4 (Matrix.of ![![(0 : ℚ)], ![1]]) ![2, 3] (by
    have hA : (addBias (Matrix.of ![![(0 : ℚ)], ![1]]))ᵀ *
        addBias (Matrix.of ![![(0 : ℚ)], ![1]]) = Matrix.of ![![2, 1], ![1, 1]] := by
      ext i j
      fin_cases i <;> fin_cases j <;>
        norm_num [addBias, Matrix.mul_apply, Fin.sum_univ_succ]
    rw [hA, Matrix.det_fin_two_of]
    norm_num)).1
